import Mathlib

/-! ## Definitions: the embedded data model and operations -/

inductive Size where
  | small : Size
  | large : Size
deriving DecidableEq, Repr

abbrev Vec26 := Fin 26 → ℕ

def sumV (v : Vec26) : ℕ := (List.finRange 26).foldr (fun i a => v i + a) 0

structure Design where
  name : Char
  size : Size
  total : ℕ
  minStems : Vec26
  maxStems : Vec26
deriving DecidableEq

def Design.minSum (d : Design) : ℕ := sumV d.minStems

def Design.maxSum (d : Design) : ℕ := sumV d.maxStems

structure RawBounds where
  minStems : Vec26
  maxStems : Vec26
  uniqueStemCount : ℕ

def emptyRaw : RawBounds := ⟨fun _ => 0, fun _ => 0, 0⟩

def addPair (r : RawBounds) (p : ℕ × Fin 26) : RawBounds where
  minStems := fun i => if i = p.2 then 1 else r.minStems i
  maxStems := fun i => if i = p.2 then p.1 else r.maxStems i
  uniqueStemCount := r.uniqueStemCount + 1

def buildRaw (pairs : List (ℕ × Fin 26)) : RawBounds := pairs.foldl addPair emptyRaw

def capMax (total k : ℕ) (mx : Vec26) : Vec26 := fun i => min (mx i) (1 + total - k)

def tightenMin (mn mx : Vec26) : Vec26 := fun i =>
  if mx i = 0 then mn i else max 1 (mx i - min (mx i) (sumV mx - mx i))

def tighten (total k : ℕ) (b : Vec26 × Vec26) : Vec26 × Vec26 :=
  (tightenMin b.1 (capMax total k b.2), capMax total k b.2)

structure RegInput where
  name : Char
  size : Size
  pairs : List (ℕ × Fin 26)
  total : ℕ

def regDesign (r : RegInput) : Design :=
  let raw := buildRaw r.pairs
  let b := tighten r.total raw.uniqueStemCount (raw.minStems, raw.maxStems)
  { name := r.name, size := r.size, total := r.total, minStems := b.1, maxStems := b.2 }

structure ProductionLine where
  stems : Vec26
  designs : List Design
  designsPerStem : Fin 26 → List ℕ
  maxPerStem : Vec26

def emptyLine : ProductionLine :=
  { stems := fun _ => 0, designs := [], designsPerStem := fun _ => [], maxPerStem := fun _ => 0 }

def addDesign (pl : ProductionLine) (d : Design) : Option ProductionLine :=
  if pl.designs.length < 26 then
    some { stems := pl.stems
           designs := pl.designs ++ [d]
           designsPerStem := fun s =>
             if d.maxStems s ≠ 0 ∧ (pl.designsPerStem s).length < 26 then
               pl.designsPerStem s ++ [pl.designs.length]
             else pl.designsPerStem s
           maxPerStem := fun s =>
             if d.maxStems s ≠ 0 then max (pl.maxPerStem s) (d.maxStems s)
             else pl.maxPerStem s }
  else none

def acceptDesign (pl : ProductionLine) (d : Design) : Option ProductionLine :=
  if d.minSum ≤ d.total then addDesign pl d else some pl

def registerAll (pl : ProductionLine) : List RegInput → Option ProductionLine
  | [] => some pl
  | r :: rest =>
    match acceptDesign pl (regDesign r) with
    | none => none
    | some pl2 => registerAll pl2 rest

def keyAt (ds : List Design) (idx : ℕ) : ℕ :=
  match ds[idx]? with
  | some d => d.total
  | none => 65535

def sIns (t : ℕ → ℕ) (a : ℕ) : List ℕ → List ℕ
  | [] => [a]
  | b :: l => if t b < t a then b :: sIns t a l else a :: b :: l

def sSort (t : ℕ → ℕ) : List ℕ → List ℕ
  | [] => []
  | a :: l => sIns t a (sSort t l)

def preprocess (pl : ProductionLine) : ProductionLine :=
  { pl with designsPerStem := fun s => sSort (keyAt pl.designs) (pl.designsPerStem s) }

def grab (stems mx : Vec26) : Vec26 := fun i => min (stems i) (mx i)

def Sat (stems : Vec26) (d : Design) : Prop :=
  d.total ≤ sumV (grab stems d.maxStems) ∧ ∀ i, d.minStems i ≤ grab stems d.maxStems i

def satB (stems : Vec26) (d : Design) : Bool :=
  decide (d.total ≤ sumV (grab stems d.maxStems)) &&
    (List.finRange 26).all fun i => decide (d.minStems i ≤ grab stems d.maxStems i)

def remAfter (es : ℕ → ℕ) (e : ℕ) : ℕ → ℕ
  | 0 => e
  | n + 1 => remAfter es e n - min (remAfter es e n) (es n)

def retAmt (es : ℕ → ℕ) (e : ℕ) (n : ℕ) : ℕ := min (remAfter es e n) (es n)

def roomOf (g mn : Vec26) : ℕ → ℕ := fun n =>
  if h : n < 26 then g ⟨n, h⟩ - mn ⟨n, h⟩ else 0

def finalGrab (stems' : Vec26) (d : Design) : Vec26 :=
  let g := grab stems' d.maxStems
  fun i => g i - retAmt (roomOf g d.minStems) (sumV g - d.total) i.val

structure Bundle where
  designIdx : ℕ
  name : Char
  size : Size
  counts : Vec26
deriving DecidableEq

def scan (ds : List Design) (stems' : Vec26) : List ℕ → Option (ℕ × Design)
  | [] => none
  | idx :: rest =>
    match ds[idx]? with
    | none => none
    | some d => if satB stems' d then some (idx, d) else scan ds stems' rest

def bump (v : Vec26) (s : Fin 26) : Vec26 := fun i => if i = s then v i + 1 else v i

def addStem (pl : ProductionLine) (s : Fin 26) : ProductionLine × Option Bundle :=
  let stems' := bump pl.stems s
  if pl.maxPerStem s < stems' s then ({ pl with stems := stems' }, none)
  else
    match scan pl.designs stems' (pl.designsPerStem s) with
    | none => ({ pl with stems := stems' }, none)
    | some (idx, d) =>
      let g := finalGrab stems' d
      ({ pl with stems := fun i => stems' i - g i }, some ⟨idx, d.name, d.size, g⟩)

def addStemNC (pl : ProductionLine) (s : Fin 26) : ProductionLine × Option Bundle :=
  let stems' := bump pl.stems s
  match scan pl.designs stems' (pl.designsPerStem s) with
  | none => ({ pl with stems := stems' }, none)
  | some (idx, d) =>
    let g := finalGrab stems' d
    ({ pl with stems := fun i => stems' i - g i }, some ⟨idx, d.name, d.size, g⟩)

def playAll (pl : ProductionLine) : List (Fin 26) → ProductionLine × List Bundle
  | [] => (pl, [])
  | s :: rest =>
    let step := addStem pl s
    let r := playAll step.1 rest
    (r.1, match step.2 with | none => r.2 | some b => b :: r.2)

def playAllNC (pl : ProductionLine) : List (Fin 26) → ProductionLine × List Bundle
  | [] => (pl, [])
  | s :: rest =>
    let step := addStemNC pl s
    let r := playAllNC step.1 rest
    (r.1, match step.2 with | none => r.2 | some b => b :: r.2)

def pipeline (regs : List RegInput) (arrs : List (Fin 26)) :
    Option (ProductionLine × List Bundle) :=
  match registerAll emptyLine regs with
  | none => none
  | some pl => some (playAll (preprocess pl) arrs)

def lexLT (t : ℕ → ℕ) (a b : ℕ) : Prop := t a < t b ∨ (t a = t b ∧ a < b)

def BuildInv (pl : ProductionLine) : Prop :=
  pl.designs.length ≤ 26 ∧
  (∀ d ∈ pl.designs, d.minSum ≤ d.total ∧ ∀ s, d.maxStems s ≠ 0 → 1 ≤ d.minStems s) ∧
  ∀ s : Fin 26,
    (pl.designsPerStem s).length ≤ pl.designs.length ∧
    (pl.designsPerStem s).Pairwise (· < ·) ∧
    (∀ idx ∈ pl.designsPerStem s,
      ∃ d, pl.designs[idx]? = some d ∧ d.maxStems s ≠ 0 ∧ d.maxStems s ≤ pl.maxPerStem s) ∧
    (∀ idx d, pl.designs[idx]? = some d → d.maxStems s ≠ 0 → idx ∈ pl.designsPerStem s)

def LineInv (pl : ProductionLine) : Prop :=
  (∀ d ∈ pl.designs, d.minSum ≤ d.total ∧ ∀ s, d.maxStems s ≠ 0 → 1 ≤ d.minStems s) ∧
  (∀ s : Fin 26,
    (pl.designsPerStem s).Pairwise (lexLT (keyAt pl.designs)) ∧
    (∀ idx ∈ pl.designsPerStem s,
      ∃ d, pl.designs[idx]? = some d ∧ d.maxStems s ≠ 0 ∧ d.maxStems s ≤ pl.maxPerStem s) ∧
    (∀ idx d, pl.designs[idx]? = some d → d.maxStems s ≠ 0 → idx ∈ pl.designsPerStem s)) ∧
  (∀ d ∈ pl.designs, Sat pl.stems d → d.total = 0)

def lineReady (regs : List RegInput) : Option ProductionLine :=
  match registerAll emptyLine regs with
  | none => none
  | some pl => some (preprocess pl)

def ValidBundle (mn mx : Vec26) (T : ℕ) (v : Vec26) : Prop :=
  sumV v = T ∧ ∀ s, mn s ≤ v s ∧ v s ≤ mx s

instance (v : Vec26) (d : Design) : Decidable (Sat v d) := by
  unfold Sat; infer_instance

instance (mn mx : Vec26) (T : ℕ) (v : Vec26) : Decidable (ValidBundle mn mx T v) := by
  unfold ValidBundle; infer_instance

inductive ScanR (ds : List Design) (v : Vec26) : List ℕ → Option (ℕ × Design) → Prop where
  | nil : ScanR ds v [] none
  | stop {idx : ℕ} {rest : List ℕ} : ds[idx]? = none → ScanR ds v (idx :: rest) none
  | found {idx : ℕ} {rest : List ℕ} {d : Design} : ds[idx]? = some d → Sat v d →
      ScanR ds v (idx :: rest) (some (idx, d))
  | skip {idx : ℕ} {rest : List ℕ} {d : Design} {r : Option (ℕ × Design)} :
      ds[idx]? = some d → ¬Sat v d → ScanR ds v rest r → ScanR ds v (idx :: rest) r

inductive StepR (pl : ProductionLine) (s : Fin 26) : ProductionLine × Option Bundle → Prop where
  | wmSkip : pl.maxPerStem s < bump pl.stems s s →
      StepR pl s ({ pl with stems := bump pl.stems s }, none)
  | noMatch : ¬pl.maxPerStem s < bump pl.stems s s →
      ScanR pl.designs (bump pl.stems s) (pl.designsPerStem s) none →
      StepR pl s ({ pl with stems := bump pl.stems s }, none)
  | matched {idx : ℕ} {d : Design} : ¬pl.maxPerStem s < bump pl.stems s s →
      ScanR pl.designs (bump pl.stems s) (pl.designsPerStem s) (some (idx, d)) →
      StepR pl s
        ({ pl with stems := fun i => bump pl.stems s i - finalGrab (bump pl.stems s) d i },
          some ⟨idx, d.name, d.size, finalGrab (bump pl.stems s) d⟩)

inductive RunR : ProductionLine → List (Fin 26) → ProductionLine × List Bundle → Prop where
  | nil (pl : ProductionLine) : RunR pl [] (pl, [])
  | consNone {pl : ProductionLine} {s : Fin 26} {rest : List (Fin 26)}
      {pl1 : ProductionLine} {r : ProductionLine × List Bundle} :
      StepR pl s (pl1, none) → RunR pl1 rest r → RunR pl (s :: rest) r
  | consSome {pl : ProductionLine} {s : Fin 26} {rest : List (Fin 26)}
      {pl1 : ProductionLine} {b : Bundle} {pl2 : ProductionLine} {bs : List Bundle} :
      StepR pl s (pl1, some b) → RunR pl1 rest (pl2, bs) → RunR pl (s :: rest) (pl2, b :: bs)

def w1regs : List RegInput := [⟨'A', Size.small, [(3, 0)], 3⟩]

def w1pl : ProductionLine := (lineReady w1regs).getD emptyLine

def w1arrs : List (Fin 26) := [0, 0, 0]

def w2regs : List RegInput := [⟨'B', Size.small, [(2, 0), (3, 1)], 5⟩]

def w2pl : ProductionLine := (lineReady w2regs).getD emptyLine

def w2arrs : List (Fin 26) := [0, 0, 1, 1, 1]

def c3regs : List RegInput := [⟨'A', Size.small, [], 0⟩, ⟨'B', Size.small, [(1, 0)], 1⟩]

def c3pl : ProductionLine := (lineReady c3regs).getD emptyLine

def c3dA : Design := regDesign ⟨'A', Size.small, [], 0⟩

def w3regs : List RegInput :=
  [⟨'A', Size.small, [(1, 0)], 1⟩, ⟨'B', Size.small, [(1, 0)], 1⟩]

def w3pl : ProductionLine := (lineReady w3regs).getD emptyLine

def w3dB : Design := regDesign ⟨'B', Size.small, [(1, 0)], 1⟩

def w3b : Bundle := ((addStem w3pl 0).2).getD ⟨0, 'A', Size.small, fun _ => 0⟩

def c4regs : List RegInput := [⟨'A', Size.small, [(5, 0)], 9⟩]

def c4pl : ProductionLine := (lineReady c4regs).getD emptyLine

def w4regs : List RegInput := [⟨'A', Size.small, [(5, 0)], 9⟩, ⟨'B', Size.small, [(1, 1)], 1⟩]

def w4pl : ProductionLine := (lineReady w4regs).getD emptyLine

def w4arrs : List (Fin 26) := [1]

def w5regs : List RegInput := [⟨'A', Size.small, [(3, 0)], 3⟩]

def w5pl : ProductionLine := (lineReady w5regs).getD emptyLine

def w5arrs : List (Fin 26) := [0, 0]

def w5b : Bundle := ((addStem (playAll w5pl w5arrs).1 0).2).getD ⟨0, 'A', Size.small, fun _ => 0⟩

def w6regs : List RegInput := [⟨'A', Size.small, [(1, 0), (1, 1)], 2⟩]

def w6pl : ProductionLine := (lineReady w6regs).getD emptyLine

def w6arrs : List (Fin 26) := [0, 0, 1]

def c7pairs : List (ℕ × Fin 26) := [(9, 0), (9, 0)]

def c7v : Vec26 := fun i => if i = 0 then 9 else 0

def w7pairs : List (ℕ × Fin 26) := [(3, 0)]

def w7v : Vec26 := fun i => if i = 0 then 3 else 0

def w9regs : List RegInput := [⟨'A', Size.small, [(1, 0)], 1⟩]

def w9pl : ProductionLine := (lineReady w9regs).getD emptyLine

def w9arrs : List (Fin 26) := [0]

def w10d : Design := regDesign ⟨'A', Size.small, [(1, 0)], 1⟩

/-! ## Theorems -/

theorem sumV_eq_sum (v : Vec26) : sumV v = ∑ i, v i := by
  rw [Fin.sum_univ_def, sumV]
  induction (List.finRange 26) with
  | nil => rfl
  | cons a l ih => simp [List.foldr_cons, ih]

theorem satB_iff {stems : Vec26} {d : Design} : satB stems d = true ↔ Sat stems d := by
  simp [satB, Sat, List.all_eq_true, List.mem_finRange]

theorem remAfter_succ (es : ℕ → ℕ) (e n : ℕ) :
    remAfter es e (n + 1) = remAfter es e n - es n := by
  simp only [remAfter]; omega

theorem remAfter_le (es : ℕ → ℕ) (e n : ℕ) : remAfter es e n ≤ e := by
  induction n with
  | zero => simp [remAfter]
  | succ n ih => rw [remAfter_succ]; omega

theorem remAfter_eq (es : ℕ → ℕ) (e n : ℕ) :
    remAfter es e n = e - ∑ j ∈ Finset.range n, es j := by
  induction n with
  | zero => simp [remAfter]
  | succ n ih => rw [remAfter_succ, ih, Finset.sum_range_succ]; omega

theorem retAmt_eq (es : ℕ → ℕ) (e n : ℕ) :
    retAmt es e n = remAfter es e n - remAfter es e (n + 1) := by
  simp only [retAmt, remAfter]; omega

theorem retAmt_le_room (es : ℕ → ℕ) (e n : ℕ) : retAmt es e n ≤ es n :=
  min_le_right _ _

theorem sum_retAmt (es : ℕ → ℕ) (e N : ℕ) :
    ∑ n ∈ Finset.range N, retAmt es e n = e - remAfter es e N := by
  induction N with
  | zero => simp [remAfter]
  | succ n ih =>
    rw [Finset.sum_range_succ, ih, retAmt_eq]
    have h1 := remAfter_le es e n
    have h2 : remAfter es e (n + 1) ≤ remAfter es e n := by rw [remAfter_succ]; omega
    omega

theorem finalGrab_le_grab (stems' : Vec26) (d : Design) (i : Fin 26) :
    finalGrab stems' d i ≤ grab stems' d.maxStems i :=
  Nat.sub_le _ _

theorem finalGrab_le_stems (stems' : Vec26) (d : Design) (i : Fin 26) :
    finalGrab stems' d i ≤ stems' i :=
  le_trans (finalGrab_le_grab stems' d i) (min_le_left _ _)

theorem finalGrab_le_max (stems' : Vec26) (d : Design) (i : Fin 26) :
    finalGrab stems' d i ≤ d.maxStems i :=
  le_trans (finalGrab_le_grab stems' d i) (min_le_right _ _)

theorem finalGrab_ge_min {stems' : Vec26} {d : Design} (h : Sat stems' d) (i : Fin 26) :
    d.minStems i ≤ finalGrab stems' d i := by
  have hroom : retAmt (roomOf (grab stems' d.maxStems) d.minStems) (sumV (grab stems' d.maxStems) - d.total) i.val ≤
      grab stems' d.maxStems i - d.minStems i := by
    have := retAmt_le_room (roomOf (grab stems' d.maxStems) d.minStems)
      (sumV (grab stems' d.maxStems) - d.total) i.val
    simpa [roomOf, i.isLt, Fin.eta] using this
  have hmin := h.2 i
  simp only [finalGrab]
  omega

theorem giveback_sum (g mn : Vec26) (T : ℕ) (hmn : ∀ i, mn i ≤ g i)
    (hT : T ≤ sumV g) (hms : sumV mn ≤ T) :
    sumV (fun i => g i - retAmt (roomOf g mn) (sumV g - T) i.val) = T := by
  have hroom : ∀ i : Fin 26, roomOf g mn i.val = g i - mn i := by
    intro i; simp [roomOf, i.isLt]
  have hretle : ∀ i : Fin 26, retAmt (roomOf g mn) (sumV g - T) i.val ≤ g i := by
    intro i
    have h1 := retAmt_le_room (roomOf g mn) (sumV g - T) i.val
    have h2 := hroom i
    omega
  have hsplit : sumV (fun i => g i - retAmt (roomOf g mn) (sumV g - T) i.val)
      = sumV g - ∑ i : Fin 26, retAmt (roomOf g mn) (sumV g - T) i.val := by
    rw [sumV_eq_sum, sumV_eq_sum]
    exact Finset.sum_tsub_distrib _ (fun i _ => hretle i)
  have hfin : ∑ i : Fin 26, retAmt (roomOf g mn) (sumV g - T) i.val
      = ∑ n ∈ Finset.range 26, retAmt (roomOf g mn) (sumV g - T) n :=
    Fin.sum_univ_eq_sum_range (fun n => retAmt (roomOf g mn) (sumV g - T) n) 26
  have hessum : ∑ n ∈ Finset.range 26, roomOf g mn n = sumV g - sumV mn := by
    have h1 : ∑ n ∈ Finset.range 26, roomOf g mn n = ∑ i : Fin 26, (g i - mn i) := by
      rw [← Fin.sum_univ_eq_sum_range (fun n => roomOf g mn n) 26]
      exact Finset.sum_congr rfl (fun i _ => hroom i)
    have h2 : ∑ i : Fin 26, (g i - mn i) = ∑ i : Fin 26, g i - ∑ i : Fin 26, mn i :=
      Finset.sum_tsub_distrib _ (fun i _ => hmn i)
    rw [h1, h2, sumV_eq_sum, sumV_eq_sum]
  have hrem : remAfter (roomOf g mn) (sumV g - T) 26 = 0 := by
    rw [remAfter_eq, hessum]; omega
  have hsumret := sum_retAmt (roomOf g mn) (sumV g - T) 26
  rw [hsplit, hfin, hsumret, hrem]
  omega

theorem sumV_finalGrab {stems' : Vec26} {d : Design} (h : Sat stems' d)
    (hm : d.minSum ≤ d.total) : sumV (finalGrab stems' d) = d.total := by
  have : finalGrab stems' d = fun i => grab stems' d.maxStems i -
      retAmt (roomOf (grab stems' d.maxStems) d.minStems)
        (sumV (grab stems' d.maxStems) - d.total) i.val := rfl
  rw [this]
  exact giveback_sum _ _ _ h.2 h.1 hm

theorem sumV_mono {a b : Vec26} (h : ∀ i, a i ≤ b i) : sumV a ≤ sumV b := by
  rw [sumV_eq_sum, sumV_eq_sum]
  exact Finset.sum_le_sum fun i _ => h i

theorem Sat.mono {v w : Vec26} {d : Design} (hvw : ∀ i, w i ≤ v i) (h : Sat w d) :
    Sat v d := by
  have hg : ∀ i, grab w d.maxStems i ≤ grab v d.maxStems i := fun i => by
    simp only [grab]; exact min_le_min (hvw i) le_rfl
  exact ⟨le_trans h.1 (sumV_mono hg), fun i => le_trans (h.2 i) (hg i)⟩

theorem grab_bump_eq {v : Vec26} {s : Fin 26} {mx : Vec26} (h : mx s ≤ v s) :
    grab (bump v s) mx = grab v mx := by
  funext i
  by_cases hi : i = s
  · subst hi
    have hb : bump v i i = v i + 1 := if_pos rfl
    simp only [grab, hb]
    omega
  · simp [grab, bump, hi]

theorem sat_bump_iff {v : Vec26} {s : Fin 26} {d : Design} (h : d.maxStems s ≤ v s) :
    Sat (bump v s) d ↔ Sat v d := by
  unfold Sat
  rw [grab_bump_eq h]

theorem scan_eq_some {ds : List Design} {v : Vec26} {l : List ℕ} {i : ℕ} {e : Design}
    (h : scan ds v l = some (i, e)) :
    ds[i]? = some e ∧ Sat v e ∧
      ∃ l₁ l₂, l = l₁ ++ i :: l₂ ∧
        ∀ j ∈ l₁, ∀ d, ds[j]? = some d → ¬Sat v d := by
  induction l with
  | nil => simp [scan] at h
  | cons idx rest ih =>
    rw [scan] at h
    cases hidx : ds[idx]? with
    | none =>
      simp only [hidx] at h
      exact Option.noConfusion h
    | some d =>
      simp only [hidx] at h
      by_cases hsat : satB v d
      · rw [if_pos hsat] at h
        obtain ⟨hi, he⟩ : idx = i ∧ d = e := by
          constructor <;> [exact congrArg Prod.fst (Option.some.inj h);
            exact congrArg Prod.snd (Option.some.inj h)]
        subst hi; subst he
        exact ⟨hidx, satB_iff.mp hsat, [], rest, rfl, by simp⟩
      · rw [if_neg hsat] at h
        obtain ⟨h1, h2, l₁, l₂, h3, h4⟩ := ih h
        refine ⟨h1, h2, idx :: l₁, l₂, by simp [h3], ?_⟩
        intro j hj d2 hd2 hs
        rcases List.mem_cons.mp hj with hj | hj
        · subst hj
          rw [hidx] at hd2
          cases hd2
          exact hsat (satB_iff.mpr hs)
        · exact h4 j hj d2 hd2 hs

theorem scan_eq_none {ds : List Design} {v : Vec26} {l : List ℕ}
    (hvalid : ∀ idx ∈ l, ∃ d, ds[idx]? = some d)
    (h : scan ds v l = none) :
    ∀ idx ∈ l, ∀ d, ds[idx]? = some d → ¬Sat v d := by
  induction l with
  | nil => simp
  | cons idx rest ih =>
    intro j hj d hd hs
    rw [scan] at h
    obtain ⟨d0, hd0⟩ := hvalid idx (List.mem_cons_self idx rest)
    simp only [hd0] at h
    by_cases hsat : satB v d0
    · rw [if_pos hsat] at h
      exact Option.noConfusion h
    · rw [if_neg hsat] at h
      rcases List.mem_cons.mp hj with hj | hj
      · subst hj
        rw [hd0] at hd
        cases hd
        exact hsat (satB_iff.mpr hs)
      · exact ih (fun k hk => hvalid k (List.mem_cons_of_mem _ hk)) h j hj d hd hs

theorem sIns_perm (t : ℕ → ℕ) (a : ℕ) (l : List ℕ) : List.Perm (sIns t a l) (a :: l) := by
  induction l with
  | nil => exact List.Perm.refl _
  | cons b l ih =>
    simp only [sIns]
    by_cases hb : t b < t a
    · rw [if_pos hb]
      exact List.Perm.trans (List.Perm.cons b ih) (List.Perm.swap a b l)
    · rw [if_neg hb]

theorem sSort_perm (t : ℕ → ℕ) (l : List ℕ) : List.Perm (sSort t l) l := by
  induction l with
  | nil => exact List.Perm.refl _
  | cons a l ih => exact List.Perm.trans (sIns_perm t a (sSort t l)) (List.Perm.cons a ih)

theorem sIns_pairwise {t : ℕ → ℕ} {a : ℕ} {l : List ℕ}
    (h : l.Pairwise (lexLT t)) (ha : ∀ b ∈ l, a < b) :
    (sIns t a l).Pairwise (lexLT t) := by
  induction l with
  | nil => simp [sIns]
  | cons b l ih =>
    simp only [sIns]
    rcases List.pairwise_cons.mp h with ⟨hb, hl⟩
    by_cases hba : t b < t a
    · rw [if_pos hba]
      refine List.pairwise_cons.mpr ⟨?_, ih hl fun c hc => ha c (List.mem_cons_of_mem _ hc)⟩
      intro c hc
      rcases List.mem_cons.mp ((sIns_perm t a l).mem_iff.mp hc) with hc2 | hc2
      · subst hc2; exact Or.inl hba
      · exact hb c hc2
    · rw [if_neg hba]
      refine List.pairwise_cons.mpr ⟨?_, h⟩
      intro c hc
      rcases List.mem_cons.mp hc with hc | hc
      · subst hc
        rcases Nat.lt_or_ge (t a) (t c) with h1 | h1
        · exact Or.inl h1
        · exact Or.inr ⟨le_antisymm (Nat.le_of_not_lt hba) h1, ha c (List.mem_cons_self c l)⟩
      · rcases Nat.lt_or_ge (t a) (t c) with h1 | h1
        · exact Or.inl h1
        · refine Or.inr ⟨?_, ha c (List.mem_cons_of_mem _ hc)⟩
          rcases hb c hc with h2 | h2
          · omega
          · omega

theorem sSort_pairwise {t : ℕ → ℕ} {l : List ℕ}
    (h : l.Pairwise (· < ·)) : (sSort t l).Pairwise (lexLT t) := by
  induction l with
  | nil => simp [sSort]
  | cons a l ih =>
    rcases List.pairwise_cons.mp h with ⟨ha, hl⟩
    exact sIns_pairwise (ih hl) fun b hb => ha b ((sSort_perm t l).mem_iff.mp hb)

theorem regDesign_min_pos (r : RegInput) (s : Fin 26) :
    (regDesign r).maxStems s ≠ 0 → 1 ≤ (regDesign r).minStems s := by
  intro h
  simp only [regDesign, tighten, tightenMin] at *
  rw [if_neg h]
  exact le_max_left _ _

theorem sumV_zero : sumV (fun _ => 0) = 0 := by decide

theorem sumV_eq_zero {v : Vec26} (h : sumV v = 0) : ∀ i, v i = 0 := by
  rw [sumV_eq_sum] at h
  intro i
  exact (Finset.sum_eq_zero_iff.mp h) i (Finset.mem_univ i)

theorem degenerate_no_max {d : Design} (hwf : d.minSum ≤ d.total ∧
    ∀ s, d.maxStems s ≠ 0 → 1 ≤ d.minStems s) (h0 : d.total = 0) :
    ∀ s, d.maxStems s = 0 := by
  intro s
  by_contra hmax
  have h1 := hwf.2 s hmax
  have h2 : d.minSum = 0 := by omega
  have h3 := sumV_eq_zero h2 s
  omega

theorem sat_zero_total {d : Design} (h : Sat (fun _ => 0) d) : d.total = 0 := by
  have hg : grab (fun _ => 0) d.maxStems = fun _ => 0 := by
    funext i; simp [grab]
  have := h.1
  rw [hg, sumV_zero] at this
  omega

theorem lt_of_getElem?_some {α : Type} {l : List α} {i : ℕ} {a : α}
    (h : l[i]? = some a) : i < l.length := by
  rcases List.getElem?_eq_some.mp h with ⟨h1, -⟩
  exact h1

theorem emptyLine_buildInv : BuildInv emptyLine := by
  refine ⟨by simp [emptyLine], by simp [emptyLine], fun s => ⟨by simp [emptyLine],
    by simp [emptyLine], by simp [emptyLine], ?_⟩⟩
  intro idx d hd
  simp [emptyLine] at hd

theorem addDesign_buildInv {pl pl2 : ProductionLine} {d : Design}
    (h : BuildInv pl)
    (hwf : d.minSum ≤ d.total ∧ ∀ s, d.maxStems s ≠ 0 → 1 ≤ d.minStems s)
    (hadd : addDesign pl d = some pl2) : BuildInv pl2 := by
  obtain ⟨hlen, hdes, hsp⟩ := h
  unfold addDesign at hadd
  by_cases hlt : pl.designs.length < 26
  · rw [if_pos hlt] at hadd
    cases hadd
    refine ⟨by simp; omega, ?_, ?_⟩
    · intro d0 hd0
      rcases List.mem_append.mp hd0 with hd0 | hd0
      · exact hdes d0 hd0
      · rcases List.mem_singleton.mp hd0 with rfl
        exact hwf
    · intro s
      obtain ⟨hs1, hs2, hs3, hs4⟩ := hsp s
      by_cases hcond : d.maxStems s ≠ 0 ∧ (pl.designsPerStem s).length < 26
      · refine ⟨?_, ?_, ?_, ?_⟩ <;> simp only [if_pos hcond]
        · simp; omega
        · rw [List.pairwise_append]
          refine ⟨hs2, List.pairwise_singleton _ _, ?_⟩
          intro a ha b hb
          rcases List.mem_singleton.mp hb with rfl
          obtain ⟨d0, hd0, -, -⟩ := hs3 a ha
          exact lt_of_getElem?_some hd0
        · intro idx hidx
          rcases List.mem_append.mp hidx with hidx | hidx
          · obtain ⟨d0, hd0, hd0max, hd0wm⟩ := hs3 idx hidx
            have hlt2 : idx < pl.designs.length := lt_of_getElem?_some hd0
            refine ⟨d0, ?_, hd0max, ?_⟩
            · rw [List.getElem?_append_left hlt2]
              exact hd0
            · by_cases hds : d.maxStems s ≠ 0
              · simp only [if_pos hds]
                exact le_trans hd0wm (le_max_left _ _)
              · simp only [if_neg hds]
                exact hd0wm
          · rcases List.mem_singleton.mp hidx with rfl
            refine ⟨d, ?_, hcond.1, ?_⟩
            · exact List.getElem?_concat_length _ _
            · simp only [if_pos hcond.1]
              exact le_max_right _ _
        · intro idx d0 hd0 hd0max
          by_cases hlt2 : idx < pl.designs.length
          · rw [List.getElem?_append_left hlt2] at hd0
            exact List.mem_append_left _ (hs4 idx d0 hd0 hd0max)
          · have heq : idx = pl.designs.length := by
              have h1 := lt_of_getElem?_some hd0
              simp only [List.length_append, List.length_singleton] at h1
              omega
            subst heq
            rw [List.getElem?_concat_length] at hd0
            cases hd0
            exact List.mem_append_right _ (List.mem_singleton_self _)
      · refine ⟨?_, ?_, ?_, ?_⟩ <;> simp only [if_neg hcond]
        · simp only [List.length_append, List.length_singleton]
          omega
        · exact hs2
        · intro idx hidx
          obtain ⟨d0, hd0, hd0max, hd0wm⟩ := hs3 idx hidx
          have hlt2 : idx < pl.designs.length := lt_of_getElem?_some hd0
          refine ⟨d0, ?_, hd0max, ?_⟩
          · rw [List.getElem?_append_left hlt2]
            exact hd0
          · by_cases hds : d.maxStems s ≠ 0
            · simp only [if_pos hds]
              exact le_trans hd0wm (le_max_left _ _)
            · simp only [if_neg hds]
              exact hd0wm
        · intro idx d0 hd0 hd0max
          by_cases hlt2 : idx < pl.designs.length
          · rw [List.getElem?_append_left hlt2] at hd0
            exact hs4 idx d0 hd0 hd0max
          · exfalso
            have heq : idx = pl.designs.length := by
              have h1 := lt_of_getElem?_some hd0
              simp only [List.length_append, List.length_singleton] at h1
              omega
            subst heq
            rw [List.getElem?_concat_length] at hd0
            cases hd0
            rcases not_and_or.mp hcond with hc | hc
            · exact hc hd0max
            · exact hc (lt_of_le_of_lt hs1 hlt)
  · rw [if_neg hlt] at hadd
    cases hadd

theorem acceptDesign_buildInv {pl pl2 : ProductionLine} {r : RegInput}
    (h : BuildInv pl) (hacc : acceptDesign pl (regDesign r) = some pl2) :
    BuildInv pl2 := by
  unfold acceptDesign at hacc
  by_cases hfit : (regDesign r).minSum ≤ (regDesign r).total
  · rw [if_pos hfit] at hacc
    exact addDesign_buildInv h ⟨hfit, regDesign_min_pos r⟩ hacc
  · rw [if_neg hfit] at hacc
    cases hacc
    exact h

theorem registerAll_buildInv {pl pl2 : ProductionLine} {regs : List RegInput}
    (h : BuildInv pl) (hreg : registerAll pl regs = some pl2) : BuildInv pl2 := by
  induction regs generalizing pl with
  | nil => cases hreg; exact h
  | cons r rest ih =>
    rw [registerAll] at hreg
    cases hacc : acceptDesign pl (regDesign r) with
    | none => rw [hacc] at hreg; cases hreg
    | some plm =>
      rw [hacc] at hreg
      exact ih (acceptDesign_buildInv h hacc) hreg

theorem registerAll_stems {pl pl2 : ProductionLine} {regs : List RegInput}
    (hreg : registerAll pl regs = some pl2) : pl2.stems = pl.stems := by
  induction regs generalizing pl with
  | nil => cases hreg; rfl
  | cons r rest ih =>
    rw [registerAll] at hreg
    cases hacc : acceptDesign pl (regDesign r) with
    | none => rw [hacc] at hreg; cases hreg
    | some plm =>
      rw [hacc] at hreg
      have h1 : plm.stems = pl.stems := by
        unfold acceptDesign at hacc
        by_cases hfit : (regDesign r).minSum ≤ (regDesign r).total
        · rw [if_pos hfit] at hacc
          unfold addDesign at hacc
          by_cases hlt : pl.designs.length < 26
          · rw [if_pos hlt] at hacc; cases hacc; rfl
          · rw [if_neg hlt] at hacc; cases hacc
        · rw [if_neg hfit] at hacc; cases hacc; rfl
      rw [ih hreg, h1]

theorem preprocess_lineInv {pl : ProductionLine} (h : BuildInv pl)
    (hstems : pl.stems = fun _ => 0) : LineInv (preprocess pl) := by
  obtain ⟨-, hdes, hsp⟩ := h
  refine ⟨hdes, ?_, ?_⟩
  · intro s
    obtain ⟨-, hs2, hs3, hs4⟩ := hsp s
    refine ⟨sSort_pairwise hs2, ?_, ?_⟩
    · intro idx hidx
      exact hs3 idx ((sSort_perm _ _).mem_iff.mp hidx)
    · intro idx d hd hmax
      exact (sSort_perm _ _).mem_iff.mpr (hs4 idx d hd hmax)
  · intro d hd hsat
    rw [show (preprocess pl).stems = pl.stems from rfl, hstems] at hsat
    exact sat_zero_total hsat

theorem mem_of_getElem?_some {α : Type} {l : List α} {i : ℕ} {a : α}
    (h : l[i]? = some a) : a ∈ l :=
  List.mem_iff_getElem?.mpr ⟨i, h⟩

theorem addStem_spec (pl : ProductionLine) (s : Fin 26) :
    (pl.maxPerStem s < bump pl.stems s s ∧
      addStem pl s = ({ pl with stems := bump pl.stems s }, none)) ∨
    (¬pl.maxPerStem s < bump pl.stems s s ∧
      scan pl.designs (bump pl.stems s) (pl.designsPerStem s) = none ∧
      addStem pl s = ({ pl with stems := bump pl.stems s }, none)) ∨
    (∃ idx d, ¬pl.maxPerStem s < bump pl.stems s s ∧
      scan pl.designs (bump pl.stems s) (pl.designsPerStem s) = some (idx, d) ∧
      addStem pl s =
        ({ pl with stems := fun i => bump pl.stems s i - finalGrab (bump pl.stems s) d i },
          some ⟨idx, d.name, d.size, finalGrab (bump pl.stems s) d⟩)) := by
  by_cases hw : pl.maxPerStem s < bump pl.stems s s
  · refine Or.inl ⟨hw, ?_⟩
    simp only [addStem, if_pos hw]
  · cases hscan : scan pl.designs (bump pl.stems s) (pl.designsPerStem s) with
    | none =>
      refine Or.inr (Or.inl ⟨hw, rfl, ?_⟩)
      simp only [addStem, if_neg hw, hscan]
    | some p =>
      refine Or.inr (Or.inr ⟨p.1, p.2, hw, rfl, ?_⟩)
      simp only [addStem, if_neg hw, hscan]

theorem addStem_lineInv {pl : ProductionLine} (h : LineInv pl) (s : Fin 26) :
    LineInv (addStem pl s).1 := by
  obtain ⟨hdes, hsp, hnosat⟩ := h
  have hbs : bump pl.stems s s = pl.stems s + 1 := if_pos rfl
  rcases addStem_spec pl s with ⟨hw, heq⟩ | ⟨hw, hscan, heq⟩ | ⟨idx, d, hw, hscan, heq⟩
  · rw [heq]
    refine ⟨hdes, hsp, ?_⟩
    intro d hd hsat
    by_cases hm : d.maxStems s = 0
    · exact hnosat d hd ((sat_bump_iff (by rw [hm]; exact Nat.zero_le _)).mp hsat)
    · obtain ⟨i, hi⟩ := List.mem_iff_getElem?.mp hd
      obtain ⟨d2, hd2, hmax2, hwm⟩ := (hsp s).2.1 i ((hsp s).2.2 i d hi hm)
      rw [hi] at hd2
      cases hd2
      have hle : d.maxStems s ≤ pl.stems s := by omega
      exact hnosat d hd ((sat_bump_iff hle).mp hsat)
  · rw [heq]
    refine ⟨hdes, hsp, ?_⟩
    intro d hd hsat
    by_cases hm : d.maxStems s = 0
    · exact hnosat d hd ((sat_bump_iff (by rw [hm]; exact Nat.zero_le _)).mp hsat)
    · obtain ⟨i, hi⟩ := List.mem_iff_getElem?.mp hd
      have hmem : i ∈ pl.designsPerStem s := (hsp s).2.2 i d hi hm
      have hvalid : ∀ j ∈ pl.designsPerStem s, ∃ d2, pl.designs[j]? = some d2 := by
        intro j hj
        obtain ⟨d2, hd2, -, -⟩ := (hsp s).2.1 j hj
        exact ⟨d2, hd2⟩
      exact absurd hsat (scan_eq_none hvalid hscan i hmem d hi)
  · rw [heq]
    refine ⟨hdes, hsp, ?_⟩
    intro d0 hd0 hsat
    obtain ⟨hlook, hsatd, l₁, l₂, hsplit, hpre⟩ := scan_eq_some hscan
    have hidx_mem : idx ∈ pl.designsPerStem s := by
      rw [hsplit]
      exact List.mem_append_right _ (List.mem_cons_self _ _)
    obtain ⟨d2, hd2, hmax2, hwm2⟩ := (hsp s).2.1 idx hidx_mem
    rw [hlook] at hd2
    cases hd2
    have hmin_pos : 1 ≤ d.minStems s :=
      (hdes d (mem_of_getElem?_some hlook)).2 s hmax2
    have hg_ge : d.minStems s ≤ finalGrab (bump pl.stems s) d s := finalGrab_ge_min hsatd s
    have hstems_le : ∀ i, bump pl.stems s i - finalGrab (bump pl.stems s) d i ≤ pl.stems i := by
      intro i
      have hgle := finalGrab_le_stems (bump pl.stems s) d i
      by_cases hi : i = s
      · subst hi
        omega
      · have hb : bump pl.stems s i = pl.stems i := if_neg hi
        omega
    exact hnosat d0 hd0 (Sat.mono hstems_le hsat)

theorem lineReady_lineInv {regs : List RegInput} {pl : ProductionLine}
    (h : lineReady regs = some pl) : LineInv pl := by
  unfold lineReady at h
  cases hreg : registerAll emptyLine regs with
  | none => rw [hreg] at h; cases h
  | some pl0 =>
    rw [hreg] at h
    cases h
    exact preprocess_lineInv (registerAll_buildInv emptyLine_buildInv hreg)
      (registerAll_stems hreg)

theorem addStem_designs (pl : ProductionLine) (s : Fin 26) :
    (addStem pl s).1.designs = pl.designs := by
  rcases addStem_spec pl s with ⟨-, heq⟩ | ⟨-, -, heq⟩ | ⟨idx, d, -, -, heq⟩ <;> rw [heq]

theorem playAll_designs (pl : ProductionLine) (arrs : List (Fin 26)) :
    (playAll pl arrs).1.designs = pl.designs := by
  induction arrs generalizing pl with
  | nil => rfl
  | cons s rest ih => rw [playAll, ih, addStem_designs]

theorem playAll_lineInv {pl : ProductionLine} (h : LineInv pl) (arrs : List (Fin 26)) :
    LineInv (playAll pl arrs).1 := by
  induction arrs generalizing pl with
  | nil => exact h
  | cons s rest ih => exact ih (addStem_lineInv h s)

theorem addStem_bundle {pl : ProductionLine} {s : Fin 26} {b : Bundle}
    (h : LineInv pl) (hstep : (addStem pl s).2 = some b) :
    ∃ d, pl.designs[b.designIdx]? = some d ∧ b.name = d.name ∧ b.size = d.size ∧
      b.counts = finalGrab (bump pl.stems s) d ∧ Sat (bump pl.stems s) d ∧
      d.minSum ≤ d.total := by
  rcases addStem_spec pl s with ⟨-, heq⟩ | ⟨-, -, heq⟩ | ⟨idx, d, -, hscan, heq⟩
  · rw [heq] at hstep; cases hstep
  · rw [heq] at hstep; cases hstep
  · rw [heq] at hstep
    cases hstep
    obtain ⟨hlook, hsatd, -⟩ := scan_eq_some hscan
    exact ⟨d, hlook, rfl, rfl, rfl, hsatd,
      (h.1 d (mem_of_getElem?_some hlook)).1⟩

theorem playAll_bundle {pl : ProductionLine} (h : LineInv pl) (arrs : List (Fin 26)) :
    ∀ b ∈ (playAll pl arrs).2,
      ∃ d, pl.designs[b.designIdx]? = some d ∧ b.name = d.name ∧ b.size = d.size ∧
        (∃ v : Vec26, b.counts = finalGrab v d ∧ Sat v d) ∧ d.minSum ≤ d.total := by
  induction arrs generalizing pl with
  | nil => intro b hb; cases hb
  | cons s rest ih =>
    intro b hb
    rw [playAll] at hb
    have hdes := addStem_designs pl s
    cases hstep : (addStem pl s).2 with
    | none =>
      rw [hstep] at hb
      obtain ⟨d, hd, h1, h2, h3, h4⟩ := ih (addStem_lineInv h s) b hb
      rw [hdes] at hd
      exact ⟨d, hd, h1, h2, h3, h4⟩
    | some b0 =>
      rw [hstep] at hb
      rcases List.mem_cons.mp hb with hb | hb
      · subst hb
        obtain ⟨d, hd, h1, h2, h3, h4, h5⟩ := addStem_bundle h hstep
        exact ⟨d, hd, h1, h2, ⟨bump pl.stems s, h3, h4⟩, h5⟩
      · obtain ⟨d, hd, h1, h2, h3, h4⟩ := ih (addStem_lineInv h s) b hb
        rw [hdes] at hd
        exact ⟨d, hd, h1, h2, h3, h4⟩

theorem addStem_priority {pl : ProductionLine} (h : LineInv pl) {s : Fin 26} {b : Bundle}
    (hstep : (addStem pl s).2 = some b) {j : ℕ} {dj : Design}
    (hj : pl.designs[j]? = some dj) (hsat : Sat (bump pl.stems s) dj)
    (hnz : dj.total ≠ 0) (hne : j ≠ b.designIdx) :
    ∃ e, pl.designs[b.designIdx]? = some e ∧
      (e.total < dj.total ∨ (e.total = dj.total ∧ b.designIdx < j)) := by
  obtain ⟨hdes, hsp, hnosat⟩ := h
  have hm : dj.maxStems s ≠ 0 := by
    intro hm0
    exact hnz (hnosat dj (mem_of_getElem?_some hj)
      ((sat_bump_iff (by rw [hm0]; exact Nat.zero_le _)).mp hsat))
  have hjmem : j ∈ pl.designsPerStem s := (hsp s).2.2 j dj hj hm
  rcases addStem_spec pl s with ⟨-, heq⟩ | ⟨-, -, heq⟩ | ⟨idx, d, hw, hscan, heq⟩
  · rw [heq] at hstep; cases hstep
  · rw [heq] at hstep; cases hstep
  · rw [heq] at hstep
    cases hstep
    obtain ⟨hlook, hsatd, l₁, l₂, hsplit, hpre⟩ := scan_eq_some hscan
    refine ⟨d, hlook, ?_⟩
    have hj_in : j ∈ l₁ ++ idx :: l₂ := by rw [← hsplit]; exact hjmem
    rcases List.mem_append.mp hj_in with hj1 | hj2
    · exact absurd hsat (hpre j hj1 dj hj)
    · rcases List.mem_cons.mp hj2 with hj2 | hj2
      · exact absurd hj2 hne
      · have hpair := (hsp s).1
        rw [hsplit] at hpair
        have hp2 := (List.pairwise_append.mp hpair).2.1
        have hlex := (List.pairwise_cons.mp hp2).1 j hj2
        unfold lexLT at hlex
        simp only [keyAt, hlook, hj] at hlex
        exact hlex

theorem addStem_eq_addStemNC {pl : ProductionLine} (h : LineInv pl) (s : Fin 26) :
    addStem pl s = addStemNC pl s := by
  obtain ⟨hdes, hsp, hnosat⟩ := h
  by_cases hw : pl.maxPerStem s < bump pl.stems s s
  · have hnone : scan pl.designs (bump pl.stems s) (pl.designsPerStem s) = none := by
      cases hscan : scan pl.designs (bump pl.stems s) (pl.designsPerStem s) with
      | none => rfl
      | some p =>
        exfalso
        obtain ⟨hlook, hsatp, l₁, l₂, hsplit, -⟩ := scan_eq_some hscan
        have hmem : p.1 ∈ pl.designsPerStem s := by
          rw [hsplit]
          exact List.mem_append_right _ (List.mem_cons_self _ _)
        obtain ⟨d2, hd2, hmax2, hwm2⟩ := (hsp s).2.1 p.1 hmem
        rw [hlook] at hd2
        cases hd2
        have hbs : bump pl.stems s s = pl.stems s + 1 := if_pos rfl
        have hle : p.2.maxStems s ≤ pl.stems s := by omega
        have hsat0 : Sat pl.stems p.2 := (sat_bump_iff hle).mp hsatp
        have h0 : p.2.total = 0 := hnosat p.2 (mem_of_getElem?_some hlook) hsat0
        have hall0 := degenerate_no_max (hdes p.2 (mem_of_getElem?_some hlook)) h0
        exact hmax2 (hall0 s)
    calc addStem pl s = ({ pl with stems := bump pl.stems s }, none) := by
          simp only [addStem, if_pos hw]
      _ = addStemNC pl s := by simp only [addStemNC, hnone]
  · cases hscan : scan pl.designs (bump pl.stems s) (pl.designsPerStem s) with
    | none => simp only [addStem, addStemNC, if_neg hw, hscan]
    | some p =>
      obtain ⟨i0, d0⟩ := p
      simp only [addStem, addStemNC, if_neg hw, hscan]

theorem playAll_eq_playAllNC {pl : ProductionLine} (h : LineInv pl) (arrs : List (Fin 26)) :
    playAll pl arrs = playAllNC pl arrs := by
  induction arrs generalizing pl with
  | nil => rfl
  | cons s rest ih =>
    rw [playAll, playAllNC, ← addStem_eq_addStemNC h s, ih (addStem_lineInv h s)]

theorem addStem_stems_exact {pl : ProductionLine} {s : Fin 26} {b : Bundle}
    (hstep : (addStem pl s).2 = some b) :
    ∀ i, b.counts i ≤ bump pl.stems s i ∧
      (addStem pl s).1.stems i + b.counts i = bump pl.stems s i := by
  rcases addStem_spec pl s with ⟨-, heq⟩ | ⟨-, -, heq⟩ | ⟨idx, d, -, -, heq⟩
  · rw [heq] at hstep; cases hstep
  · rw [heq] at hstep; cases hstep
  · rw [heq] at hstep
    cases hstep
    intro i
    rw [heq]
    have := finalGrab_le_stems (bump pl.stems s) d i
    constructor
    · exact this
    · simp only
      omega

theorem buildRaw_count (pairs : List (ℕ × Fin 26)) :
    (buildRaw pairs).uniqueStemCount = pairs.length := by
  suffices h : ∀ r : RawBounds,
      (pairs.foldl addPair r).uniqueStemCount = r.uniqueStemCount + pairs.length by
    simpa [buildRaw, emptyRaw] using h emptyRaw
  induction pairs with
  | nil => intro r; simp
  | cons p rest ih =>
    intro r
    rw [List.foldl_cons, ih]
    simp [addPair]
    omega

theorem buildRaw_min (pairs : List (ℕ × Fin 26)) (s : Fin 26) :
    (buildRaw pairs).minStems s = if s ∈ pairs.map Prod.snd then 1 else 0 := by
  suffices h : ∀ r : RawBounds, (pairs.foldl addPair r).minStems s =
      if s ∈ pairs.map Prod.snd then 1 else r.minStems s by
    simpa [buildRaw, emptyRaw] using h emptyRaw
  induction pairs with
  | nil => intro r; simp
  | cons p rest ih =>
    intro r
    rw [List.foldl_cons, ih]
    by_cases hmem : s ∈ rest.map Prod.snd
    · rw [if_pos hmem, if_pos (by simp [hmem])]
    · rw [if_neg hmem]
      by_cases hp : s = p.2
      · rw [if_pos (by simp [hp])]
        simp [addPair, hp]
      · rw [if_neg (by simp [hp, hmem])]
        simp [addPair, hp]

theorem buildRaw_max_unnamed (pairs : List (ℕ × Fin 26)) (s : Fin 26)
    (hmem : s ∉ pairs.map Prod.snd) : (buildRaw pairs).maxStems s = 0 := by
  suffices h : ∀ r : RawBounds, s ∉ pairs.map Prod.snd →
      (pairs.foldl addPair r).maxStems s = r.maxStems s by
    simpa [buildRaw, emptyRaw] using h emptyRaw hmem
  induction pairs with
  | nil => intro r _; simp
  | cons p rest ih =>
    intro r hmem2
    simp only [List.map_cons, List.mem_cons] at hmem2
    push_neg at hmem2
    rw [List.foldl_cons, ih hmem2.2 (addPair r p) hmem2.2]
    simp [addPair, hmem2.1]

theorem le_sumV (v : Vec26) (i : Fin 26) : v i ≤ sumV v := by
  rw [sumV_eq_sum]
  exact Finset.single_le_sum (fun j _ => Nat.zero_le (v j)) (Finset.mem_univ i)

theorem tighten_valid_core (mn0 mx0 : Vec26) (T k : ℕ) (S : Finset (Fin 26))
    (hcard : S.card = k)
    (hmn0 : ∀ s, mn0 s = if s ∈ S then 1 else 0)
    (hmx0 : ∀ s, s ∉ S → mx0 s = 0)
    (v : Vec26) :
    ValidBundle mn0 mx0 T v ↔
      ValidBundle (tightenMin mn0 (capMax T k mx0)) (capMax T k mx0) T v := by
  constructor
  · rintro ⟨hsum, hbnd⟩
    have hvS : ∀ t ∈ S, 1 ≤ v t := by
      intro t ht
      have h1 := (hbnd t).1
      rw [hmn0 t, if_pos ht] at h1
      exact h1
    have hv0 : ∀ t, t ∉ S → v t = 0 := by
      intro t ht
      have h1 := (hbnd t).2
      have h2 := hmx0 t ht
      omega
    have hsum_fin : ∑ i : Fin 26, v i = T := by rw [← sumV_eq_sum]; exact hsum
    have hTS : ∑ i ∈ S, v i = T := by
      rw [← hsum_fin]
      exact Finset.sum_subset (Finset.subset_univ S) (fun x _ hx => hv0 x hx)
    have hcount : ∀ s0 ∈ S, v s0 + (k - 1) ≤ T := by
      intro s0 hs0
      have h1 : ∑ x ∈ S.erase s0, v x + v s0 = ∑ x ∈ S, v x := Finset.sum_erase_add S v hs0
      have h2 : (S.erase s0).card ≤ ∑ x ∈ S.erase s0, v x := by
        have h3 := Finset.card_nsmul_le_sum (S.erase s0) v 1
          (fun x hx => hvS x (Finset.mem_of_mem_erase hx))
        simpa using h3
      have h4 : (S.erase s0).card = S.card - 1 := Finset.card_erase_of_mem hs0
      omega
    have hk1 : ∀ s0 ∈ S, 1 ≤ k := by
      intro s0 hs0
      have h1 := Finset.card_pos.mpr ⟨s0, hs0⟩
      omega
    have hmax : ∀ t, v t ≤ capMax T k mx0 t := by
      intro t
      by_cases ht : t ∈ S
      · have h1 := hcount t ht
        have h2 := hvS t ht
        have h3 := (hbnd t).2
        have h4 := hk1 t ht
        simp only [capMax]
        omega
      · have h1 := hv0 t ht
        simp only [capMax]
        omega
    refine ⟨hsum, fun s => ⟨?_, hmax s⟩⟩
    by_cases h0 : capMax T k mx0 s = 0
    · simp only [tightenMin, if_pos h0]
      exact (hbnd s).1
    · simp only [tightenMin, if_neg h0]
      have hsS : s ∈ S := by
        by_contra hns
        exact h0 (by simp [capMax, hmx0 s hns])
      have h1 : 1 ≤ v s := hvS s hsS
      have hlane : capMax T k mx0 s ≤ sumV (capMax T k mx0) := le_sumV _ s
      have hTO : T ≤ v s + (sumV (capMax T k mx0) - capMax T k mx0 s) := by
        have e1 : v s + ∑ x ∈ Finset.univ.erase s, v x = ∑ i : Fin 26, v i :=
          Finset.add_sum_erase _ v (Finset.mem_univ s)
        have e2 : capMax T k mx0 s + ∑ x ∈ Finset.univ.erase s, capMax T k mx0 x =
            ∑ i : Fin 26, capMax T k mx0 i :=
          Finset.add_sum_erase _ _ (Finset.mem_univ s)
        have e3 : ∑ x ∈ Finset.univ.erase s, v x ≤ ∑ x ∈ Finset.univ.erase s, capMax T k mx0 x :=
          Finset.sum_le_sum (fun x _ => hmax x)
        have e4 : sumV (capMax T k mx0) = ∑ i : Fin 26, capMax T k mx0 i := sumV_eq_sum _
        omega
      have hcapT : capMax T k mx0 s ≤ T := by
        have h4 := hk1 s hsS
        simp only [capMax]
        omega
      omega
  · rintro ⟨hsum, hbnd⟩
    refine ⟨hsum, fun s => ⟨?_, le_trans (hbnd s).2 (min_le_left _ _)⟩⟩
    have h2 := (hbnd s).1
    by_cases h0 : capMax T k mx0 s = 0
    · simp only [tightenMin, if_pos h0] at h2
      exact h2
    · simp only [tightenMin, if_neg h0] at h2
      have h3 : mn0 s ≤ 1 := by rw [hmn0 s]; split <;> omega
      omega

theorem ScanR_det {ds : List Design} {v : Vec26} {l : List ℕ}
    {r1 r2 : Option (ℕ × Design)} (h1 : ScanR ds v l r1) (h2 : ScanR ds v l r2) :
    r1 = r2 := by
  induction h1 with
  | nil => cases h2; rfl
  | stop h =>
    cases h2 with
    | stop h2a => rfl
    | found h2a h2b => rw [h] at h2a; cases h2a
    | skip h2a h2b h2c => rw [h] at h2a; cases h2a
  | found hl hs =>
    cases h2 with
    | stop h2a => rw [h2a] at hl; cases hl
    | found h2a h2b => rw [hl] at h2a; cases h2a; rfl
    | skip h2a h2b h2c => rw [hl] at h2a; cases h2a; exact absurd hs h2b
  | skip hl hn hr ih =>
    cases h2 with
    | stop h2a => rw [h2a] at hl; cases hl
    | found h2a h2b => rw [hl] at h2a; cases h2a; exact absurd h2b hn
    | skip h2a h2b h2c => exact ih h2c

theorem StepR_det {pl : ProductionLine} {s : Fin 26}
    {r1 r2 : ProductionLine × Option Bundle} (h1 : StepR pl s r1) (h2 : StepR pl s r2) :
    r1 = r2 := by
  cases h1 with
  | wmSkip hw =>
    cases h2 with
    | wmSkip h2w => rfl
    | noMatch h2w h2s => exact absurd hw h2w
    | matched h2w h2s => exact absurd hw h2w
  | noMatch hw hs =>
    cases h2 with
    | wmSkip h2w => exact absurd h2w hw
    | noMatch h2w h2s => rfl
    | matched h2w h2s => cases ScanR_det hs h2s
  | matched hw hs =>
    cases h2 with
    | wmSkip h2w => exact absurd h2w hw
    | noMatch h2w h2s => cases ScanR_det hs h2s
    | matched h2w h2s =>
      have h3 := ScanR_det hs h2s
      cases h3
      rfl

theorem RunR_det {pl : ProductionLine} {arrs : List (Fin 26)}
    {r1 r2 : ProductionLine × List Bundle} (h1 : RunR pl arrs r1) (h2 : RunR pl arrs r2) :
    r1 = r2 := by
  induction h1 generalizing r2 with
  | nil pl => cases h2; rfl
  | consNone hstep hrun ih =>
    cases h2 with
    | consNone h2step h2run =>
      have h3 := StepR_det hstep h2step
      cases h3
      exact ih h2run
    | consSome h2step h2run =>
      have h3 := StepR_det hstep h2step
      cases h3
  | consSome hstep hrun ih =>
    cases h2 with
    | consNone h2step h2run =>
      have h3 := StepR_det hstep h2step
      cases h3
    | consSome h2step h2run =>
      have h3 := StepR_det hstep h2step
      injection h3 with h4 h5
      subst h4
      injection h5 with h6
      subst h6
      have h7 := ih h2run
      injection h7 with h8 h9
      subst h8
      subst h9
      rfl

theorem scan_scanR (ds : List Design) (v : Vec26) (l : List ℕ) :
    ScanR ds v l (scan ds v l) := by
  induction l with
  | nil => exact ScanR.nil
  | cons idx rest ih =>
    cases hidx : ds[idx]? with
    | none =>
      have h1 : scan ds v (idx :: rest) = none := by simp only [scan, hidx]
      rw [h1]
      exact ScanR.stop hidx
    | some d =>
      by_cases hs : satB v d = true
      · have h1 : scan ds v (idx :: rest) = some (idx, d) := by
          simp only [scan, hidx, if_pos hs]
        rw [h1]
        exact ScanR.found hidx (satB_iff.mp hs)
      · have h1 : scan ds v (idx :: rest) = scan ds v rest := by
          simp only [scan, hidx, if_neg hs]
        rw [h1]
        exact ScanR.skip hidx (fun hh => hs (satB_iff.mpr hh)) ih

theorem addStem_stepR (pl : ProductionLine) (s : Fin 26) : StepR pl s (addStem pl s) := by
  rcases addStem_spec pl s with ⟨hw, heq⟩ | ⟨hw, hscan, heq⟩ | ⟨idx, d, hw, hscan, heq⟩
  · rw [heq]
    exact StepR.wmSkip hw
  · rw [heq]
    exact StepR.noMatch hw (hscan ▸ scan_scanR pl.designs (bump pl.stems s) (pl.designsPerStem s))
  · rw [heq]
    exact StepR.matched hw (hscan ▸ scan_scanR pl.designs (bump pl.stems s) (pl.designsPerStem s))

theorem playAll_runR (pl : ProductionLine) (arrs : List (Fin 26)) :
    RunR pl arrs (playAll pl arrs) := by
  induction arrs generalizing pl with
  | nil => exact RunR.nil pl
  | cons s rest ih =>
    have hstep := addStem_stepR pl s
    rw [playAll]
    cases hout : (addStem pl s).2 with
    | none =>
      have h1 : addStem pl s = ((addStem pl s).1, none) := by
        rw [← hout]
      rw [h1] at hstep
      exact RunR.consNone hstep (ih (addStem pl s).1)
    | some b =>
      have h1 : addStem pl s = ((addStem pl s).1, some b) := by
        rw [← hout]
      rw [h1] at hstep
      exact RunR.consSome hstep (ih (addStem pl s).1)

theorem bundle_conservation (regs : List RegInput) (arrs : List (Fin 26))
    (pl : ProductionLine) (hready : lineReady regs = some pl) :
    ∀ b ∈ (playAll pl arrs).2,
      ∃ d, pl.designs[b.designIdx]? = some d ∧ sumV b.counts = d.total := by
  intro b hb
  obtain ⟨d, hd, -, -, ⟨v, hcounts, hsat⟩, hmin⟩ :=
    playAll_bundle (lineReady_lineInv hready) arrs b hb
  exact ⟨d, hd, by rw [hcounts]; exact sumV_finalGrab hsat hmin⟩

theorem bundle_conservation_witness :
    lineReady w1regs = some w1pl ∧ (playAll w1pl w1arrs).2.length = 1 ∧
    ∀ b ∈ (playAll w1pl w1arrs).2,
      ∃ d, w1pl.designs[b.designIdx]? = some d ∧ sumV b.counts = d.total :=
  ⟨rfl, by decide, bundle_conservation w1regs w1arrs w1pl rfl⟩

theorem bundle_bounds (regs : List RegInput) (arrs : List (Fin 26))
    (pl : ProductionLine) (hready : lineReady regs = some pl) :
    ∀ b ∈ (playAll pl arrs).2,
      ∃ d, pl.designs[b.designIdx]? = some d ∧
        ∀ i, (b.counts i ≠ 0 → d.minStems i ≤ b.counts i ∧ b.counts i ≤ d.maxStems i) ∧
          (b.counts i = 0 → d.minStems i = 0) := by
  intro b hb
  obtain ⟨d, hd, -, -, ⟨v, hcounts, hsat⟩, -⟩ :=
    playAll_bundle (lineReady_lineInv hready) arrs b hb
  refine ⟨d, hd, fun i => ?_⟩
  have hge : d.minStems i ≤ b.counts i := by rw [hcounts]; exact finalGrab_ge_min hsat i
  have hle : b.counts i ≤ d.maxStems i := by rw [hcounts]; exact finalGrab_le_max v d i
  exact ⟨fun _ => ⟨hge, hle⟩, fun h0 => by omega⟩

theorem bundle_bounds_witness :
    lineReady w2regs = some w2pl ∧ (playAll w2pl w2arrs).2.length = 1 ∧
    ∀ b ∈ (playAll w2pl w2arrs).2,
      ∃ d, w2pl.designs[b.designIdx]? = some d ∧
        ∀ i, (b.counts i ≠ 0 → d.minStems i ≤ b.counts i ∧ b.counts i ≤ d.maxStems i) ∧
          (b.counts i = 0 → d.minStems i = 0) :=
  ⟨rfl, by decide, bundle_bounds w2regs w2arrs w2pl rfl⟩

theorem priority_counterexample :
    lineReady c3regs = some c3pl ∧
    c3pl.designs[0]? = some c3dA ∧
    c3dA.total = 0 ∧
    Sat (bump c3pl.stems 0) c3dA ∧
    ((addStem c3pl 0).2.map Bundle.designIdx) = some 1 ∧
    ((addStem c3pl 0).2.map Bundle.name) = some 'B' ∧
    (c3pl.designs.map Design.total) = [0, 1] :=
  ⟨rfl, by decide, by decide, by decide, by decide, by decide, by decide⟩

theorem matched_design_priority (regs : List RegInput) (arrs : List (Fin 26))
    (pl : ProductionLine) (hready : lineReady regs = some pl) (s : Fin 26)
    (b : Bundle) (hstep : (addStem (playAll pl arrs).1 s).2 = some b)
    (j : ℕ) (dj : Design) (hj : (playAll pl arrs).1.designs[j]? = some dj)
    (hsat : Sat (bump (playAll pl arrs).1.stems s) dj)
    (hnz : dj.total ≠ 0) (hne : j ≠ b.designIdx) :
    ∃ e, (playAll pl arrs).1.designs[b.designIdx]? = some e ∧
      (e.total < dj.total ∨ (e.total = dj.total ∧ b.designIdx < j)) :=
  addStem_priority (playAll_lineInv (lineReady_lineInv hready) arrs) hstep hj hsat hnz hne

theorem matched_design_priority_witness :
    lineReady w3regs = some w3pl ∧
    (addStem (playAll w3pl []).1 0).2 = some w3b ∧
    w3pl.designs[1]? = some w3dB ∧
    Sat (bump (playAll w3pl []).1.stems 0) w3dB ∧
    w3dB.total ≠ 0 ∧ (1 : ℕ) ≠ w3b.designIdx ∧
    (∃ e, (playAll w3pl []).1.designs[w3b.designIdx]? = some e ∧
      (e.total < w3dB.total ∨ (e.total = w3dB.total ∧ w3b.designIdx < 1))) :=
  ⟨rfl, by decide, by decide, by decide, by decide, by decide,
    matched_design_priority w3regs [] w3pl rfl 0 w3b (by decide) 1 w3dB (by decide)
      (by decide) (by decide) (by decide)⟩

theorem registration_filter_counterexample :
    lineReady c4regs = some c4pl ∧
    (c4pl.designs.map (fun d => (d.total, d.maxSum))) = [(9, 5)] ∧
    (c4pl.designsPerStem 0).length = 1 :=
  ⟨rfl, by decide, by decide⟩

theorem registration_filter_amended (regs : List RegInput) (arrs : List (Fin 26))
    (pl : ProductionLine) (hready : lineReady regs = some pl) :
    (∀ d ∈ pl.designs, d.minSum ≤ d.total) ∧
    ∀ b ∈ (playAll pl arrs).2,
      ∃ d, pl.designs[b.designIdx]? = some d ∧ d.total ≤ d.maxSum := by
  have hinv := lineReady_lineInv hready
  refine ⟨fun d hd => (hinv.1 d hd).1, ?_⟩
  intro b hb
  obtain ⟨d, hd, -, -, ⟨v, hcounts, hsat⟩, hmin⟩ := playAll_bundle hinv arrs b hb
  refine ⟨d, hd, ?_⟩
  have h1 : sumV b.counts = d.total := by rw [hcounts]; exact sumV_finalGrab hsat hmin
  have h2 : ∀ i, b.counts i ≤ d.maxStems i := by
    intro i
    rw [hcounts]
    exact finalGrab_le_max v d i
  have h3 := sumV_mono h2
  rw [h1] at h3
  exact h3

theorem registration_filter_amended_witness :
    lineReady w4regs = some w4pl ∧ (playAll w4pl w4arrs).2.length = 1 ∧
    ((∀ d ∈ w4pl.designs, d.minSum ≤ d.total) ∧
    ∀ b ∈ (playAll w4pl w4arrs).2,
      ∃ d, w4pl.designs[b.designIdx]? = some d ∧ d.total ≤ d.maxSum) :=
  ⟨rfl, by decide, registration_filter_amended w4regs w4arrs w4pl rfl⟩

theorem inventory_nonneg (regs : List RegInput) (arrs : List (Fin 26))
    (pl : ProductionLine) (hready : lineReady regs = some pl) (s : Fin 26)
    (b : Bundle) (hstep : (addStem (playAll pl arrs).1 s).2 = some b) :
    ∀ i, b.counts i ≤ bump (playAll pl arrs).1.stems s i ∧
      (addStem (playAll pl arrs).1 s).1.stems i + b.counts i =
        bump (playAll pl arrs).1.stems s i :=
  addStem_stems_exact hstep

theorem inventory_nonneg_witness :
    lineReady w5regs = some w5pl ∧
    (addStem (playAll w5pl w5arrs).1 0).2 = some w5b ∧
    ∀ i, w5b.counts i ≤ bump (playAll w5pl w5arrs).1.stems 0 i ∧
      (addStem (playAll w5pl w5arrs).1 0).1.stems i + w5b.counts i =
        bump (playAll w5pl w5arrs).1.stems 0 i :=
  ⟨rfl, by decide, inventory_nonneg w5regs w5arrs w5pl rfl 0 w5b (by decide)⟩

theorem watermark_pure_optimization (regs : List RegInput) (arrs : List (Fin 26))
    (pl : ProductionLine) (hready : lineReady regs = some pl) :
    playAll pl arrs = playAllNC pl arrs :=
  playAll_eq_playAllNC (lineReady_lineInv hready) arrs

theorem watermark_pure_optimization_witness :
    lineReady w6regs = some w6pl ∧
    (bump (playAll w6pl [0]).1.stems 0 0 > w6pl.maxPerStem 0) ∧
    playAll w6pl w6arrs = playAllNC w6pl w6arrs :=
  ⟨rfl, by decide, watermark_pure_optimization w6regs w6arrs w6pl rfl⟩

theorem normalization_counterexample :
    ValidBundle (buildRaw c7pairs).minStems (buildRaw c7pairs).maxStems 9 c7v ∧
    ¬ ValidBundle
        (tighten 9 (buildRaw c7pairs).uniqueStemCount
          ((buildRaw c7pairs).minStems, (buildRaw c7pairs).maxStems)).1
        (tighten 9 (buildRaw c7pairs).uniqueStemCount
          ((buildRaw c7pairs).minStems, (buildRaw c7pairs).maxStems)).2 9 c7v :=
  ⟨by decide, by decide⟩

theorem normalization_preserves_valid (pairs : List (ℕ × Fin 26)) (T : ℕ)
    (hnd : (pairs.map Prod.snd).Nodup) (v : Vec26) :
    ValidBundle (buildRaw pairs).minStems (buildRaw pairs).maxStems T v ↔
      ValidBundle
        (tighten T (buildRaw pairs).uniqueStemCount
          ((buildRaw pairs).minStems, (buildRaw pairs).maxStems)).1
        (tighten T (buildRaw pairs).uniqueStemCount
          ((buildRaw pairs).minStems, (buildRaw pairs).maxStems)).2 T v := by
  have hcount := buildRaw_count pairs
  have hcard : (pairs.map Prod.snd).toFinset.card = (buildRaw pairs).uniqueStemCount := by
    rw [hcount, List.toFinset_card_of_nodup hnd, List.length_map]
  exact tighten_valid_core _ _ T _ _ hcard
    (fun s => by
      rw [buildRaw_min]
      by_cases h : s ∈ pairs.map Prod.snd
      · rw [if_pos h, if_pos (List.mem_toFinset.mpr h)]
      · rw [if_neg h, if_neg (fun hc => h (List.mem_toFinset.mp hc))])
    (fun s hs => buildRaw_max_unnamed pairs s (fun hc => hs (List.mem_toFinset.mpr hc)))
    v

theorem normalization_preserves_valid_witness :
    (w7pairs.map Prod.snd).Nodup ∧
    ValidBundle
      (tighten 3 (buildRaw w7pairs).uniqueStemCount
        ((buildRaw w7pairs).minStems, (buildRaw w7pairs).maxStems)).1
      (tighten 3 (buildRaw w7pairs).uniqueStemCount
        ((buildRaw w7pairs).minStems, (buildRaw w7pairs).maxStems)).2 3 w7v :=
  ⟨by decide, (normalization_preserves_valid w7pairs 3 (by decide) w7v).mp (by decide)⟩

theorem tighten_idem (total k : ℕ) (b : Vec26 × Vec26) :
    tighten total k (tighten total k b) = tighten total k b := by
  have hmax : capMax total k (capMax total k b.2) = capMax total k b.2 := by
    funext i
    simp only [capMax]
    omega
  show (tightenMin (tightenMin b.1 (capMax total k b.2))
      (capMax total k (capMax total k b.2)),
    capMax total k (capMax total k b.2)) = _
  rw [hmax]
  have hmin : tightenMin (tightenMin b.1 (capMax total k b.2)) (capMax total k b.2) =
      tightenMin b.1 (capMax total k b.2) := by
    funext i
    by_cases h0 : capMax total k b.2 i = 0
    · simp only [tightenMin, if_pos h0]
    · simp only [tightenMin, if_neg h0]
  rw [hmin]
  exact rfl

theorem run_deterministic (regs : List RegInput) (arrs : List (Fin 26))
    (pl1 pl2 : ProductionLine) (h1 : lineReady regs = some pl1)
    (h2 : lineReady regs = some pl2) (r1 r2 : ProductionLine × List Bundle)
    (hr1 : RunR pl1 arrs r1) (hr2 : RunR pl2 arrs r2) : r1 = r2 := by
  rw [h1] at h2
  injection h2 with h3
  subst h3
  exact RunR_det hr1 hr2

theorem run_deterministic_witness :
    lineReady w9regs = some w9pl ∧
    RunR w9pl w9arrs (playAll w9pl w9arrs) ∧
    playAll w9pl w9arrs = playAll w9pl w9arrs :=
  ⟨rfl, playAll_runR w9pl w9arrs,
    run_deterministic w9regs w9arrs w9pl w9pl rfl rfl _ _
      (playAll_runR w9pl w9arrs) (playAll_runR w9pl w9arrs)⟩

theorem addDesign_capacity (pl : ProductionLine) (d : Design) (regs : List RegInput)
    (pl2 : ProductionLine) (s : Fin 26) (hreg : registerAll emptyLine regs = some pl2) :
    ((addDesign pl d).isSome ↔ pl.designs.length < 26) ∧
    pl2.designs.length ≤ 26 ∧ (pl2.designsPerStem s).length ≤ 26 := by
  constructor
  · unfold addDesign
    by_cases h : pl.designs.length < 26
    · simp [h]
    · simp [h]
  · have hb := registerAll_buildInv emptyLine_buildInv hreg
    exact ⟨hb.1, le_trans (hb.2.2 s).1 hb.1⟩

theorem addDesign_capacity_witness :
    ((addDesign emptyLine w10d).isSome ↔ emptyLine.designs.length < 26) ∧
    emptyLine.designs.length ≤ 26 ∧ (emptyLine.designsPerStem 0).length ≤ 26 :=
  addDesign_capacity emptyLine w10d [] emptyLine 0 rfl
